import Mathlib

/-!
Message selection and artist extraction of gmail-retrieve-message.

A shallow embedding of `main.go`: the selection loop of
`RetrieveUnreadMessageFromSender` with `containsLabel`, and `extractArtists`
with `trimCountry`.

Go strings that hold UTF-8 text are represented by the list of their code
points. Every byte the program looks at (`'\n'`, `','`, `')'`, `" ("`,
`'A'..'Z'`) is ASCII, so byte offsets and code point offsets select the same
substrings. A run-time panic of the Go program is the result `none`.
-/

namespace GmailRetrieve

/-- A Go `string` holding UTF-8 text, as its sequence of code points. -/
abbrev GoString := List Char

/-! ## Library functions used by `extractArtists` -/

/-- Go `unicode.IsSpace`: the Unicode White_Space property. -/
def isSpace (c : Char) : Bool :=
  let n := c.toNat
  (9 ≤ n && n ≤ 13) || n == 32 || n == 133 || n == 160 || n == 5760 ||
  (8192 ≤ n && n ≤ 8202) || n == 8232 || n == 8233 || n == 8239 ||
  n == 8287 || n == 12288

/-- Removal of the leading white space (the left half of `strings.TrimSpace`). -/
def trimLeft (s : GoString) : GoString :=
  s.dropWhile isSpace

/-- Removal of the trailing white space (the right half of `strings.TrimSpace`). -/
def trimRight (s : GoString) : GoString :=
  (s.reverse.dropWhile isSpace).reverse

/-- Go `strings.TrimSpace`: all leading and trailing white space removed. -/
def TrimSpace (s : GoString) : GoString :=
  trimRight (trimLeft s)

/-- Go `strings.HasSuffix`. -/
def HasSuffix (s suffix : GoString) : Bool :=
  suffix.isSuffixOf s

/-- Go `strings.Split` for a one-character separator: the substrings between
the occurrences of `sep`, one more than there are occurrences. -/
def Split : GoString → Char → List GoString
  | [], _ => [[]]
  | c :: cs, sep =>
    if c = sep then [] :: Split cs sep
    else
      match Split cs sep with
      | [] => [[c]]
      | l :: ls => (c :: l) :: ls

/-- Offset of the first occurrence of `substr` in `s` at or after a position
that is `k` characters into the original string. -/
def indexFrom (substr : GoString) : GoString → Nat → Option Nat
  | [], k => if substr.isPrefixOf [] then some k else none
  | c :: cs, k =>
    if substr.isPrefixOf (c :: cs) then some k else indexFrom substr cs (k + 1)

/-- Go `strings.Index`: the offset of the first occurrence of `substr` in `s`,
or `-1` when there is none. -/
def Index (s substr : GoString) : Int :=
  match indexFrom substr s 0 with
  | some i => (i : Int)
  | none => -1

/-- The Go slice expression `s[:i]`: it panics unless `0 ≤ i ≤ len(s)`. -/
def sliceTo (s : GoString) (i : Int) : Option GoString :=
  if 0 ≤ i ∧ i ≤ (s.length : Int) then some (s.take i.toNat) else none

/-! ## `trimCountry` and `extractArtists` -/

/-- Source `trimCountry`: `i := strings.Index(s, " (")`, then `s[:i]`. -/
def trimCountry (s : GoString) : Option GoString :=
  let i := Index s " (".toList
  sliceTo s i

/-- The test `len(line) > 0 && line[0] >= 'A' && line[0] <= 'Z'`. -/
def startsUpper : GoString → Bool
  | [] => false
  | c :: _ => decide ('A' ≤ c) && decide (c ≤ 'Z')

/-- The inner loop of `extractArtists` over the comma separated sections of one
line, threading the slice `artists`. -/
def artistsOfSegments (artists : List GoString) : List GoString → Option (List GoString)
  | [] => some artists
  | potentialArtist :: rest =>
    let potentialArtist := TrimSpace potentialArtist
    if HasSuffix potentialArtist ")".toList then
      match trimCountry potentialArtist with
      | none => none
      | some trimmedArtist => artistsOfSegments (artists ++ [trimmedArtist]) rest
    else artistsOfSegments artists rest

/-- The outer loop of `extractArtists` over the lines, threading `artists`. -/
def artistsOfLines (artists : List GoString) : List GoString → Option (List GoString)
  | [] => some artists
  | line :: rest =>
    if startsUpper line then
      match artistsOfSegments artists (Split line ',') with
      | none => none
      | some artists => artistsOfLines artists rest
    else artistsOfLines artists rest

/-- Source `extractArtists`. -/
def extractArtists (s : GoString) : Option (List GoString) :=
  let lines := Split s '\n'
  let artists : List GoString := []
  artistsOfLines artists lines

/-! ## Statements of the extraction claims -/

/-- The prefix of a string before the first occurrence of `sep` (the whole
string when `sep` does not occur). -/
def prefixBefore (sep : GoString) : GoString → GoString
  | [] => []
  | c :: cs => if sep.isPrefixOf (c :: cs) then [] else c :: prefixBefore sep cs

/-- The list of names as the extraction contract words it: the candidate lines
in order, each split on commas, the sections trimmed, those ending with `)`
kept, and each cut before its first `" ("`. -/
def specArtists (body : GoString) : List GoString :=
  ((Split body '\n').filter startsUpper).flatMap fun line =>
    (((Split line ',').map TrimSpace).filter fun seg => HasSuffix seg ")".toList).map
      (prefixBefore " (".toList)

/-- Lines joined into one string with `'\n'` between consecutive lines. -/
def joinLines : List GoString → GoString
  | [] => []
  | [l] => l
  | l :: l2 :: ls => l ++ '\n' :: joinLines (l2 :: ls)

/-! ## Message selection -/

/-- Modelled from the spec: one header of a fetched message. The Go declaration
`gmail.MessagePartHeader` is not part of the repository. -/
structure MessagePartHeader where
  Name : GoString
  Value : GoString
  deriving DecidableEq, Repr

/-- Modelled from the spec: the fetched form of a message (`MessageDetail`),
whose Go declaration `gmail.Message` is not part of the repository. It is
fully resolved: `LabelIds` are the labels, `Headers` stands for
`Payload.Headers` and `Data` for `Payload.Body.Data`, the body in its
transfer encoding. -/
structure Message where
  LabelIds : List GoString
  Headers : List MessagePartHeader
  Data : GoString
  deriving DecidableEq, Repr

/-- The two calls of `log.Fatalf` inside the selection loop. -/
inductive Fatal where
  | retrieveMessage
  | decodeBody
  deriving DecidableEq, Repr

/-- How a run of the selection loop ends: `return bodyString` (or the final
`return ""`), or the process is stopped by `log.Fatalf`. -/
inductive Outcome where
  | returned (message : GoString)
  | fatal (reason : Fatal)
  deriving DecidableEq, Repr

/-- The result of a run together with the identifiers passed to
`Users.Messages.Get`, in call order. -/
structure Run where
  outcome : Outcome
  fetched : List GoString
  deriving DecidableEq, Repr

/-- Source `containsLabel`. -/
def containsLabel : List GoString → GoString → Bool
  | [], _ => false
  | l :: labels, label => if l = label then true else containsLabel labels label

/-- The loop over `msg.Payload.Headers` that sets `isFromSender`. -/
def isFromSender : List MessagePartHeader → GoString → Bool
  | [], _ => false
  | header :: headers, sender =>
    if header.Name = "From".toList then
      if header.Value = sender then true else isFromSender headers sender
    else isFromSender headers sender

/-- The loop `for _, message := range result.Messages` over the identifiers of
the listing. `fetch` is `srv.Users.Messages.Get("me", id).Do()` and `decode`
is `base64.URLEncoding.DecodeString` followed by `string(body[:])`; `none` is
a non-nil `err`. `fetched` accumulates the identifiers fetched so far. -/
def selectLoop (fetch : GoString → Option Message) (decode : GoString → Option GoString)
    (sender : GoString) (fetched : List GoString) : List GoString → Run
  | [] => ⟨Outcome.returned [], fetched⟩
  | id :: rest =>
    match fetch id with
    | none => ⟨Outcome.fatal Fatal.retrieveMessage, fetched ++ [id]⟩
    | some msg =>
      if !containsLabel msg.LabelIds "INBOX".toList || containsLabel msg.LabelIds "UNREAD".toList then
        if !isFromSender msg.Headers sender then
          selectLoop fetch decode sender (fetched ++ [id]) rest
        else
          match decode msg.Data with
          | none => ⟨Outcome.fatal Fatal.decodeBody, fetched ++ [id]⟩
          | some bodyString => ⟨Outcome.returned bodyString, fetched ++ [id]⟩
      else selectLoop fetch decode sender (fetched ++ [id]) rest

/-- The selection part of source `RetrieveUnreadMessageFromSender`, from
`if len(result.Messages) > 0` to the final `return ""`. -/
def selection (fetch : GoString → Option Message) (decode : GoString → Option GoString)
    (sender : GoString) (messages : List GoString) : Run :=
  if messages.length > 0 then selectLoop fetch decode sender [] messages
  else ⟨Outcome.returned [], []⟩

/-! ## Statements of the selection claims -/

/-- The sender and label predicate of the selection contract: `"INBOX"` is not
among the labels or `"UNREAD"` is, and some `"From"` header has exactly the
value `sender`. -/
def Qualifies (sender : GoString) (msg : Message) : Prop :=
  ("INBOX".toList ∉ msg.LabelIds ∨ "UNREAD".toList ∈ msg.LabelIds) ∧
    ∃ h ∈ msg.Headers, h.Name = "From".toList ∧ h.Value = sender

instance (sender : GoString) (msg : Message) : Decidable (Qualifies sender msg) := by
  unfold Qualifies
  infer_instance

/-- The message listed under `id` can be fetched and satisfies the predicate. -/
def qualifiesId (fetch : GoString → Option Message) (sender id : GoString) : Bool :=
  match fetch id with
  | some msg => decide (Qualifies sender msg)
  | none => false

/-- The outcome once a message has passed both tests of the loop. -/
def decodeOutcome (decode : GoString → Option GoString) (msg : Message) : Outcome :=
  match decode msg.Data with
  | none => Outcome.fatal Fatal.decodeBody
  | some bodyString => Outcome.returned bodyString

/-- The outcome of a run over a listing whose fetches succeed, read off the
first identifier that qualifies. -/
def outcomeOfFirst (fetch : GoString → Option Message) (decode : GoString → Option GoString)
    (sender : GoString) (ids : List GoString) : Outcome :=
  match ids.find? (qualifiesId fetch sender) with
  | none => Outcome.returned []
  | some id =>
    match fetch id with
    | none => Outcome.fatal Fatal.retrieveMessage
    | some msg => decodeOutcome decode msg

/-! ## A concrete mailbox and decoder for the examples -/

/-- The value of a character in the URL-safe base64 alphabet. -/
def base64Value (c : Char) : Option Nat :=
  let n := c.toNat
  if 65 ≤ n ∧ n ≤ 90 then some (n - 65)
  else if 97 ≤ n ∧ n ≤ 122 then some (n - 97 + 26)
  else if 48 ≤ n ∧ n ≤ 57 then some (n - 48 + 52)
  else if c = '-' then some 62
  else if c = '_' then some 63
  else none

/-- Decoding of padded base64 taken four characters at a time; padding is
accepted only in the last group. -/
def decodeQuanta : List Char → Option (List Nat)
  | [] => some []
  | a :: b :: c :: d :: rest =>
    match base64Value a, base64Value b with
    | some x, some y =>
      if c = '=' then
        if d = '=' ∧ rest = [] then some [(x * 4 + y / 16) % 256] else none
      else
        match base64Value c with
        | none => none
        | some z =>
          if d = '=' then
            if rest = [] then some [(x * 4 + y / 16) % 256, (y * 16 + z / 4) % 256] else none
          else
            match base64Value d with
            | none => none
            | some w =>
              (decodeQuanta rest).map fun bytes =>
                (x * 4 + y / 16) % 256 :: (y * 16 + z / 4) % 256 :: (z * 64 + w) % 256 :: bytes
    | _, _ => none
  | _ => none

/-- Go `base64.URLEncoding.DecodeString` followed by `string(body[:])`, for
bodies of ASCII text only: carriage returns and line feeds in the input are
ignored, and a decoded byte is read as the character of that code. On a body
with a byte of value 128 or more the Go string keeps the UTF-8 bytes and this
function does not follow it; it serves the examples below, whose bodies are
ASCII, and the theorems on `selection` hold for every decoder. -/
def DecodeString (s : GoString) : Option GoString :=
  (decodeQuanta (s.filter fun c => c ≠ '\r' ∧ c ≠ '\n')).map fun bytes => bytes.map Char.ofNat

/-- A message of the example mailbox. -/
def mkMessage (labels : List String) (sender data : String) : Message :=
  ⟨labels.map String.toList, [⟨"Subject".toList, "Gigs".toList⟩, ⟨"From".toList, sender.toList⟩],
    data.toList⟩

/-- The example mailbox: `"m1"` is a read inbox message, `"m2"` is unread but
from another sender, `"m3"` and `"m5"` are unread messages from
`news@venue.example`, `"m4"` is unread from that sender with a body that is
not base64, and every other identifier cannot be fetched. -/
def sampleFetch (id : GoString) : Option Message :=
  if id = "m1".toList then some (mkMessage ["INBOX"] "news@venue.example" "SGk=")
  else if id = "m2".toList then some (mkMessage ["INBOX", "UNREAD"] "other@venue.example" "SGk=")
  else if id = "m3".toList then some (mkMessage ["INBOX", "UNREAD"] "news@venue.example" "QSAoVVMp")
  else if id = "m4".toList then some (mkMessage ["INBOX", "UNREAD"] "news@venue.example" "!!!!")
  else if id = "m5".toList then some (mkMessage ["UNREAD", "INBOX"] "news@venue.example" "SGk=")
  else none

/-! ## Lemmas on the library functions -/

theorem Split_ne_nil (s : GoString) (sep : Char) : Split s sep ≠ [] := by
  induction s with
  | nil => simp [Split]
  | cons c cs ih =>
    unfold Split
    split
    · simp
    · split <;> simp

theorem Split_append_sep (a b : GoString) (sep : Char) :
    Split (a ++ sep :: b) sep = Split a sep ++ Split b sep := by
  induction a with
  | nil => simp [Split]
  | cons c cs ih =>
    by_cases h : c = sep
    · simp [Split, h, ih]
    · have hne := Split_ne_nil cs sep
      cases hs : Split cs sep with
      | nil => exact absurd hs hne
      | cons l ls => simp [Split, h, ih, hs]

theorem Split_of_not_mem (s : GoString) (sep : Char) (h : sep ∉ s) : Split s sep = [s] := by
  induction s with
  | nil => simp [Split]
  | cons c cs ih =>
    have hc : ¬ c = sep := fun e => h (by simp [e])
    have hcs : sep ∉ cs := fun e => h (by simp [e])
    simp [Split, hc, ih hcs]

theorem prefixBefore_initial (sep s : GoString) : prefixBefore sep s <+: s := by
  induction s with
  | nil => simp [prefixBefore]
  | cons c cs ih =>
    unfold prefixBefore
    split
    · exact List.nil_prefix
    · exact (List.prefix_cons_inj c).mpr ih

theorem not_infix_prefixBefore (sep s : GoString) (hsep : sep ≠ []) :
    ¬ sep <:+: prefixBefore sep s := by
  induction s with
  | nil => simpa [prefixBefore] using hsep
  | cons c cs ih =>
    unfold prefixBefore
    split
    · simpa using hsep
    · rename_i hp
      intro h
      rcases List.infix_cons_iff.mp h with h1 | h2
      · apply hp
        rw [List.isPrefixOf_iff_prefix]
        exact h1.trans ((List.prefix_cons_inj c).mpr (prefixBefore_initial sep cs))
      · exact ih h2

theorem indexFrom_found (sep s : GoString) (k : Nat) (h : sep <:+: s) :
    indexFrom sep s k = some (k + (prefixBefore sep s).length) := by
  induction s generalizing k with
  | nil =>
    have : sep = [] := by simpa using h
    simp [indexFrom, prefixBefore, this]
  | cons c cs ih =>
    unfold indexFrom prefixBefore
    by_cases hp : sep.isPrefixOf (c :: cs) = true
    · simp [hp]
    · have hcs : sep <:+: cs := by
        rcases List.infix_cons_iff.mp h with h1 | h2
        · exact absurd (List.isPrefixOf_iff_prefix.mpr h1) hp
        · exact h2
      rw [if_neg hp, if_neg hp, ih (k + 1) hcs]
      simp only [List.length_cons, Option.some.injEq]
      omega

theorem indexFrom_absent (sep s : GoString) (k : Nat) (h : ¬ sep <:+: s) :
    indexFrom sep s k = none := by
  induction s generalizing k with
  | nil =>
    have : ¬ sep = [] := by simpa using h
    simp [indexFrom, this]
  | cons c cs ih =>
    unfold indexFrom
    have hp : ¬ sep.isPrefixOf (c :: cs) = true := fun hp =>
      h (List.infix_cons_iff.mpr (Or.inl (List.isPrefixOf_iff_prefix.mp hp)))
    have hcs : ¬ sep <:+: cs := fun hcs => h (List.infix_cons_iff.mpr (Or.inr hcs))
    rw [if_neg hp]
    exact ih (k + 1) hcs

theorem trimCountry_found (s : GoString) (h : " (".toList <:+: s) :
    trimCountry s = some (prefixBefore " (".toList s) := by
  have hp := prefixBefore_initial " (".toList s
  have hlen : (prefixBefore " (".toList s).length ≤ s.length := hp.length_le
  unfold trimCountry Index
  rw [indexFrom_found _ s 0 h]
  simp only [sliceTo, Nat.zero_add]
  rw [if_pos ⟨by omega, by omega⟩]
  simp only [Int.toNat_ofNat, Option.some.injEq]
  exact (List.prefix_iff_eq_take.mp hp).symm

theorem trimCountry_absent (s : GoString) (h : ¬ " (".toList <:+: s) :
    trimCountry s = none := by
  unfold trimCountry Index
  rw [indexFrom_absent _ s 0 h]
  simp [sliceTo]

/-! ## Lemmas on the two loops of `extractArtists` -/

theorem artistsOfSegments_acc (acc : List GoString) (segs : List GoString) :
    artistsOfSegments acc segs = (artistsOfSegments [] segs).map (acc ++ ·) := by
  induction segs generalizing acc with
  | nil => simp [artistsOfSegments]
  | cons seg rest ih =>
    unfold artistsOfSegments
    simp only
    split
    · cases trimCountry (TrimSpace seg) with
      | none => simp
      | some t =>
        simp only
        rw [ih (acc ++ [t]), ih ([] ++ [t])]
        cases artistsOfSegments [] rest <;> simp
    · exact ih acc

theorem artistsOfLines_acc (acc : List GoString) (lines : List GoString) :
    artistsOfLines acc lines = (artistsOfLines [] lines).map (acc ++ ·) := by
  induction lines generalizing acc with
  | nil => simp [artistsOfLines]
  | cons line rest ih =>
    unfold artistsOfLines
    split
    · rw [artistsOfSegments_acc acc]
      cases artistsOfSegments [] (Split line ',') with
      | none => simp
      | some t =>
        simp only [Option.map_some', List.nil_append]
        rw [ih (acc ++ t), ih t]
        cases artistsOfLines [] rest <;> simp
    · exact ih acc

theorem artistsOfLines_append (acc : List GoString) (xs ys : List GoString) :
    artistsOfLines acc (xs ++ ys) =
      (artistsOfLines acc xs).bind fun out => artistsOfLines out ys := by
  induction xs generalizing acc with
  | nil => simp [artistsOfLines]
  | cons line rest ih =>
    simp only [List.cons_append, artistsOfLines]
    split
    · cases artistsOfSegments acc (Split line ',') with
      | none => simp
      | some t => exact ih t
    · exact ih acc

theorem extractArtists_append_newline (a b : GoString) :
    extractArtists (a ++ '\n' :: b) =
      (extractArtists a).bind fun xa => (extractArtists b).map (xa ++ ·) := by
  simp only [extractArtists, Split_append_sep, artistsOfLines_append]
  cases artistsOfLines [] (Split a '\n') with
  | none => simp
  | some xa => simpa using artistsOfLines_acc xa (Split b '\n')

theorem artistsOfSegments_spec (acc segs : List GoString)
    (h : ∀ seg ∈ segs, HasSuffix (TrimSpace seg) ")".toList = true →
      " (".toList <:+: TrimSpace seg) :
    artistsOfSegments acc segs = some (acc ++
      (((segs.map TrimSpace).filter fun seg => HasSuffix seg ")".toList).map
        (prefixBefore " (".toList))) := by
  induction segs generalizing acc with
  | nil => simp [artistsOfSegments]
  | cons seg rest ih =>
    have hrest : ∀ x ∈ rest, HasSuffix (TrimSpace x) ")".toList = true →
        " (".toList <:+: TrimSpace x := fun x hx => h x (List.mem_cons_of_mem _ hx)
    unfold artistsOfSegments
    by_cases hs : HasSuffix (TrimSpace seg) ")".toList = true
    · have hi := h seg (List.mem_cons_self _ _) hs
      simp only [hs, if_true, trimCountry_found _ hi, ih _ hrest, List.map_cons,
        List.filter_cons_of_pos, List.append_assoc, List.singleton_append]
    · rw [if_neg hs, ih _ hrest, List.map_cons, List.filter_cons_of_neg (by simpa using hs)]

theorem artistsOfLines_spec (acc lines : List GoString)
    (h : ∀ line ∈ lines, startsUpper line = true → ∀ seg ∈ Split line ',',
      HasSuffix (TrimSpace seg) ")".toList = true → " (".toList <:+: TrimSpace seg) :
    artistsOfLines acc lines = some (acc ++
      ((lines.filter startsUpper).flatMap fun line =>
        (((Split line ',').map TrimSpace).filter fun seg => HasSuffix seg ")".toList).map
          (prefixBefore " (".toList))) := by
  induction lines generalizing acc with
  | nil => simp [artistsOfLines]
  | cons line rest ih =>
    have hrest : ∀ x ∈ rest, startsUpper x = true → ∀ seg ∈ Split x ',',
        HasSuffix (TrimSpace seg) ")".toList = true → " (".toList <:+: TrimSpace seg :=
      fun x hx => h x (List.mem_cons_of_mem _ hx)
    unfold artistsOfLines
    by_cases hu : startsUpper line = true
    · have hl := h line (List.mem_cons_self _ _) hu
      simp only [hu, if_true, artistsOfSegments_spec acc _ hl, ih _ hrest,
        List.filter_cons_of_pos, List.flatMap_cons, List.append_assoc]
    · rw [if_neg hu, ih _ hrest, List.filter_cons_of_neg (by simpa using hu)]

theorem artistsOfSegments_forall (P : GoString → Prop) (acc segs out : List GoString)
    (hP : ∀ seg ∈ segs, ∀ n, trimCountry (TrimSpace seg) = some n → P n)
    (hacc : ∀ n ∈ acc, P n)
    (h : artistsOfSegments acc segs = some out) : ∀ n ∈ out, P n := by
  induction segs generalizing acc with
  | nil =>
    simp only [artistsOfSegments, Option.some.injEq] at h
    exact h ▸ hacc
  | cons seg rest ih =>
    have hrest : ∀ x ∈ rest, ∀ n, trimCountry (TrimSpace x) = some n → P n :=
      fun x hx => hP x (List.mem_cons_of_mem _ hx)
    unfold artistsOfSegments at h
    simp only at h
    split at h
    · cases ht : trimCountry (TrimSpace seg) with
      | none => simp [ht] at h
      | some t =>
        simp only [ht] at h
        refine ih (acc ++ [t]) hrest ?_ h
        intro n hn
        rcases List.mem_append.mp hn with hn | hn
        · exact hacc n hn
        · rw [List.mem_singleton.mp hn]
          exact hP seg (List.mem_cons_self _ _) t ht
    · exact ih acc hrest hacc h

theorem artistsOfLines_forall (P : GoString → Prop) (acc lines out : List GoString)
    (hP : ∀ line ∈ lines, ∀ seg ∈ Split line ',', ∀ n,
      trimCountry (TrimSpace seg) = some n → P n)
    (hacc : ∀ n ∈ acc, P n)
    (h : artistsOfLines acc lines = some out) : ∀ n ∈ out, P n := by
  induction lines generalizing acc with
  | nil =>
    simp only [artistsOfLines, Option.some.injEq] at h
    exact h ▸ hacc
  | cons line rest ih =>
    have hrest : ∀ x ∈ rest, ∀ seg ∈ Split x ',', ∀ n,
        trimCountry (TrimSpace seg) = some n → P n :=
      fun x hx => hP x (List.mem_cons_of_mem _ hx)
    unfold artistsOfLines at h
    split at h
    · cases hs : artistsOfSegments acc (Split line ',') with
      | none => simp [hs] at h
      | some t =>
        simp only [hs] at h
        exact ih t hrest
          (artistsOfSegments_forall P acc _ t (hP line (List.mem_cons_self _ _)) hacc hs) h
    · exact ih acc hrest hacc h

theorem dropWhile_of_prefix_dropWhile (p : Char → Bool) (l n : GoString)
    (h : n <+: l.dropWhile p) : n.dropWhile p = n := by
  induction l with
  | nil =>
    have : n = [] := by simpa using h
    simp [this]
  | cons a l ih =>
    by_cases hp : p a = true
    · rw [List.dropWhile_cons_of_pos hp] at h
      exact ih h
    · rw [List.dropWhile_cons_of_neg hp] at h
      cases n with
      | nil => rfl
      | cons b n =>
        have hb : b = a := (List.cons_prefix_cons.mp h).1
        rw [hb]
        exact List.dropWhile_cons_of_neg hp

theorem trimRight_initial (s : GoString) : trimRight s <+: s := by
  unfold trimRight
  have h := List.dropWhile_suffix (l := s.reverse) isSpace
  have h2 := List.reverse_prefix.mpr h
  simpa using h2

theorem trimCountry_TrimSpace_normal (seg n : GoString)
    (h : trimCountry (TrimSpace seg) = some n) :
    trimLeft n = n ∧ ¬ " (".toList <:+: n := by
  by_cases hi : " (".toList <:+: TrimSpace seg
  · rw [trimCountry_found _ hi] at h
    have hn : n = prefixBefore " (".toList (TrimSpace seg) := (Option.some.inj h).symm
    refine ⟨?_, ?_⟩
    · have h1 : n <+: TrimSpace seg := hn ▸ prefixBefore_initial _ _
      have h2 : n <+: trimLeft seg := h1.trans (trimRight_initial _)
      exact dropWhile_of_prefix_dropWhile isSpace seg n h2
    · rw [hn]
      exact not_infix_prefixBefore _ _ (by decide)
  · rw [trimCountry_absent _ hi] at h
    exact absurd h (by simp)

theorem artistsOfSegments_none (acc segs : List GoString)
    (h : ∃ seg ∈ segs, HasSuffix (TrimSpace seg) ")".toList = true ∧
      ¬ " (".toList <:+: TrimSpace seg) :
    artistsOfSegments acc segs = none := by
  induction segs generalizing acc with
  | nil => simp at h
  | cons seg rest ih =>
    unfold artistsOfSegments
    simp only
    by_cases hs : HasSuffix (TrimSpace seg) ")".toList = true
    · rw [if_pos hs]
      by_cases hi : " (".toList <:+: TrimSpace seg
      · rw [trimCountry_found _ hi]
        apply ih
        obtain ⟨x, hx, h1, h2⟩ := h
        rcases List.mem_cons.mp hx with rfl | hx
        · exact absurd hi h2
        · exact ⟨x, hx, h1, h2⟩
      · rw [trimCountry_absent _ hi]
    · rw [if_neg hs]
      apply ih
      obtain ⟨x, hx, h1, h2⟩ := h
      rcases List.mem_cons.mp hx with rfl | hx
      · exact absurd h1 hs
      · exact ⟨x, hx, h1, h2⟩

theorem artistsOfLines_none (acc lines : List GoString)
    (h : ∃ line ∈ lines, startsUpper line = true ∧ ∃ seg ∈ Split line ',',
      HasSuffix (TrimSpace seg) ")".toList = true ∧ ¬ " (".toList <:+: TrimSpace seg) :
    artistsOfLines acc lines = none := by
  induction lines generalizing acc with
  | nil => simp at h
  | cons line rest ih =>
    unfold artistsOfLines
    by_cases hu : startsUpper line = true
    · rw [if_pos hu]
      cases hseg : artistsOfSegments acc (Split line ',') with
      | none => rfl
      | some out =>
        apply ih
        obtain ⟨x, hx, h1, h2⟩ := h
        rcases List.mem_cons.mp hx with rfl | hx
        · rw [artistsOfSegments_none acc _ h2] at hseg
          exact absurd hseg (by simp)
        · exact ⟨x, hx, h1, h2⟩
    · rw [if_neg hu]
      apply ih
      obtain ⟨x, hx, h1, h2⟩ := h
      rcases List.mem_cons.mp hx with rfl | hx
      · exact absurd h1 hu
      · exact ⟨x, hx, h1, h2⟩

/-- The run of `extractArtists` panics exactly when some candidate line has a
section that ends with `)` after trimming and does not contain `" ("`. -/
theorem extractArtists_eq_none_iff (body : GoString) :
    extractArtists body = none ↔
      ∃ line ∈ Split body '\n', startsUpper line = true ∧ ∃ seg ∈ Split line ',',
        HasSuffix (TrimSpace seg) ")".toList = true ∧ ¬ " (".toList <:+: TrimSpace seg := by
  constructor
  · intro h
    by_contra hne
    have hall : ∀ line ∈ Split body '\n', startsUpper line = true → ∀ seg ∈ Split line ',',
        HasSuffix (TrimSpace seg) ")".toList = true → " (".toList <:+: TrimSpace seg := by
      intro line hl hu seg hs hsuf
      by_contra hi
      exact hne ⟨line, hl, hu, seg, hs, hsuf, hi⟩
    have := artistsOfLines_spec [] (Split body '\n') hall
    simp only [extractArtists] at h
    rw [h] at this
    exact absurd this (by simp)
  · intro h
    exact artistsOfLines_none [] _ h

/-! ## Lemmas on joined lines -/

theorem joinLines_append_cons (xs : List GoString) (y : GoString) (ys : List GoString)
    (hx : xs ≠ []) :
    joinLines (xs ++ y :: ys) = joinLines xs ++ '\n' :: joinLines (y :: ys) := by
  induction xs with
  | nil => exact absurd rfl hx
  | cons x xs ih =>
    cases xs with
    | nil => simp [joinLines]
    | cons x2 xs =>
      have := ih (by simp)
      simp only [List.cons_append] at this
      simp [joinLines, this]

theorem extractArtists_nil : extractArtists [] = some [] := by decide

theorem extractArtists_not_candidate (l : GoString) (hl : '\n' ∉ l)
    (hc : startsUpper l = false) : extractArtists l = some [] := by
  simp [extractArtists, Split_of_not_mem l '\n' hl, artistsOfLines, hc]

theorem extractArtists_joinLines_cons_skip (l : GoString) (ys : List GoString)
    (hl : '\n' ∉ l) (hc : startsUpper l = false) :
    extractArtists (joinLines (l :: ys)) = extractArtists (joinLines ys) := by
  cases ys with
  | nil =>
    simp only [joinLines]
    rw [extractArtists_not_candidate l hl hc, extractArtists_nil]
  | cons y ys =>
    simp only [joinLines]
    rw [extractArtists_append_newline, extractArtists_not_candidate l hl hc]
    cases extractArtists (joinLines (y :: ys)) <;> simp

/-! ## Extraction applied to its own output -/

theorem not_mem_of_mem_Split (s : GoString) (sep : Char) :
    ∀ piece ∈ Split s sep, sep ∉ piece := by
  induction s with
  | nil => simp [Split]
  | cons c cs ih =>
    unfold Split
    by_cases hc : c = sep
    · rw [if_pos hc]
      intro piece hp
      rcases List.mem_cons.mp hp with rfl | hp
      · simp
      · exact ih piece hp
    · rw [if_neg hc]
      cases hs : Split cs sep with
      | nil => exact absurd hs (Split_ne_nil cs sep)
      | cons l ls =>
        rw [hs] at ih
        intro piece hp
        rcases List.mem_cons.mp hp with rfl | hp
        · intro hm
          rcases List.mem_cons.mp hm with rfl | hm
          · exact hc rfl
          · exact ih l (List.mem_cons_self _ _) hm
        · exact ih piece (List.mem_cons_of_mem _ hp)

theorem subset_of_mem_Split (s : GoString) (sep : Char) :
    ∀ piece ∈ Split s sep, ∀ c ∈ piece, c ∈ s := by
  induction s with
  | nil => simp [Split]
  | cons a cs ih =>
    unfold Split
    by_cases hc : a = sep
    · rw [if_pos hc]
      intro piece hp c hcp
      rcases List.mem_cons.mp hp with rfl | hp
      · simp at hcp
      · exact List.mem_cons_of_mem _ (ih piece hp c hcp)
    · rw [if_neg hc]
      cases hs : Split cs sep with
      | nil => exact absurd hs (Split_ne_nil cs sep)
      | cons l ls =>
        rw [hs] at ih
        intro piece hp c hcp
        rcases List.mem_cons.mp hp with rfl | hp
        · rcases List.mem_cons.mp hcp with rfl | hcp
          · exact List.mem_cons_self _ _
          · exact List.mem_cons_of_mem _ (ih l (List.mem_cons_self _ _) c hcp)
        · exact List.mem_cons_of_mem _ (ih piece (List.mem_cons_of_mem _ hp) c hcp)

theorem TrimSpace_within (s : GoString) : TrimSpace s <:+: s :=
  (trimRight_initial (trimLeft s)).isInfix.trans
    (List.dropWhile_suffix (l := s) isSpace).isInfix

theorem Split_joinLines (l : GoString) (ls : List GoString)
    (h : ∀ n ∈ l :: ls, '\n' ∉ n) : Split (joinLines (l :: ls)) '\n' = l :: ls := by
  induction ls generalizing l with
  | nil => exact Split_of_not_mem l '\n' (h l (List.mem_cons_self _ _))
  | cons l2 ls ih =>
    simp only [joinLines]
    rw [Split_append_sep, Split_of_not_mem l '\n' (h l (List.mem_cons_self _ _)),
      ih l2 (fun n hn => h n (List.mem_cons_of_mem _ hn))]
    rfl

theorem artistsOfLines_of_names (acc lines : List GoString)
    (h : ∀ n ∈ lines, ',' ∉ n ∧ ¬ " (".toList <:+: n) :
    artistsOfLines acc lines = some acc ∨ artistsOfLines acc lines = none := by
  induction lines with
  | nil => exact Or.inl rfl
  | cons n rest ih =>
    have hrest := ih (fun x hx => h x (List.mem_cons_of_mem _ hx))
    obtain ⟨hcomma, hsep⟩ := h n (List.mem_cons_self _ _)
    have hsep2 : ¬ " (".toList <:+: TrimSpace n := fun hi => hsep (hi.trans (TrimSpace_within n))
    unfold artistsOfLines
    by_cases hu : startsUpper n = true
    · rw [if_pos hu, Split_of_not_mem n ',' hcomma]
      unfold artistsOfSegments
      simp only
      by_cases hs : HasSuffix (TrimSpace n) ")".toList = true
      · rw [if_pos hs, trimCountry_absent _ hsep2]
        exact Or.inr rfl
      · rw [if_neg hs]
        simpa [artistsOfSegments] using hrest
    · rw [if_neg hu]
      exact hrest

/-- Extraction applied to the names it returned, one per line, never yields a
name: it returns the empty sequence or it panics. -/
theorem extractArtists_reextraction (body : GoString) (out : List GoString)
    (h : extractArtists body = some out) :
    extractArtists (joinLines out) = some [] ∨ extractArtists (joinLines out) = none := by
  have hnames : ∀ n ∈ out, ('\n' ∉ n ∧ ',' ∉ n) ∧ ¬ " (".toList <:+: n := by
    refine artistsOfLines_forall (fun n => ('\n' ∉ n ∧ ',' ∉ n) ∧ ¬ " (".toList <:+: n)
      [] (Split body '\n') out ?_ (by simp) h
    intro line hline seg hseg n hn
    refine ⟨?_, (trimCountry_TrimSpace_normal seg n hn).2⟩
    by_cases hi : " (".toList <:+: TrimSpace seg
    · rw [trimCountry_found _ hi] at hn
      have hsub : ∀ c ∈ n, c ∈ seg := by
        intro c hc
        have h1 : n <+: TrimSpace seg := (Option.some.inj hn) ▸ prefixBefore_initial _ _
        exact (TrimSpace_within seg).subset (h1.subset hc)
      refine ⟨fun hc => ?_, fun hc => ?_⟩
      · exact not_mem_of_mem_Split body '\n' line hline
          (subset_of_mem_Split line ',' seg hseg _ (hsub _ hc))
      · exact not_mem_of_mem_Split line ',' seg hseg (hsub _ hc)
    · rw [trimCountry_absent _ hi] at hn
      exact absurd hn (by simp)
  cases out with
  | nil => exact Or.inl extractArtists_nil
  | cons n rest =>
    unfold extractArtists
    simp only
    rw [Split_joinLines n rest (fun x hx => (hnames x hx).1.1)]
    exact artistsOfLines_of_names [] _ (fun x hx => ⟨(hnames x hx).1.2, (hnames x hx).2⟩)

/-! ## Lemmas on the selection loop -/

theorem containsLabel_iff (labels : List GoString) (label : GoString) :
    containsLabel labels label = true ↔ label ∈ labels := by
  induction labels with
  | nil => simp [containsLabel]
  | cons l ls ih =>
    unfold containsLabel
    by_cases h : l = label
    · simp [h]
    · have h2 : ¬ label = l := fun e => h e.symm
      simp [h, h2, ih]

theorem isFromSender_iff (headers : List MessagePartHeader) (sender : GoString) :
    isFromSender headers sender = true ↔
      ∃ h ∈ headers, h.Name = "From".toList ∧ h.Value = sender := by
  induction headers with
  | nil => simp [isFromSender]
  | cons hd tl ih =>
    unfold isFromSender
    by_cases hn : hd.Name = "From".toList
    · by_cases hv : hd.Value = sender
      · rw [if_pos hn, if_pos hv]
        simp only [true_iff]
        exact ⟨hd, List.mem_cons_self _ _, hn, hv⟩
      · rw [if_pos hn, if_neg hv, ih]
        constructor
        · rintro ⟨h, hm, hh⟩
          exact ⟨h, List.mem_cons_of_mem _ hm, hh⟩
        · rintro ⟨h, hm, hh⟩
          rcases List.mem_cons.mp hm with rfl | hm
          · exact absurd hh.2 hv
          · exact ⟨h, hm, hh⟩
    · rw [if_neg hn, ih]
      constructor
      · rintro ⟨h, hm, hh⟩
        exact ⟨h, List.mem_cons_of_mem _ hm, hh⟩
      · rintro ⟨h, hm, hh⟩
        rcases List.mem_cons.mp hm with rfl | hm
        · exact absurd hh.1 hn
        · exact ⟨h, hm, hh⟩

theorem selectLoop_cons_some (fetch : GoString → Option Message)
    (decode : GoString → Option GoString) (sender : GoString) (acc : List GoString)
    (id : GoString) (rest : List GoString) (msg : Message) (hf : fetch id = some msg) :
    selectLoop fetch decode sender acc (id :: rest) =
      if Qualifies sender msg then ⟨decodeOutcome decode msg, acc ++ [id]⟩
      else selectLoop fetch decode sender (acc ++ [id]) rest := by
  have hl : (!containsLabel msg.LabelIds "INBOX".toList ||
      containsLabel msg.LabelIds "UNREAD".toList) = true ↔
      ("INBOX".toList ∉ msg.LabelIds ∨ "UNREAD".toList ∈ msg.LabelIds) := by
    rw [Bool.or_eq_true, containsLabel_iff, Bool.not_eq_true', ← Bool.not_eq_true,
      containsLabel_iff]
  have hs := isFromSender_iff msg.Headers sender
  rw [selectLoop, hf]
  simp only
  by_cases h1 : (!containsLabel msg.LabelIds "INBOX".toList ||
      containsLabel msg.LabelIds "UNREAD".toList) = true
  · by_cases h2 : isFromSender msg.Headers sender = true
    · have hq : Qualifies sender msg := ⟨hl.mp h1, hs.mp h2⟩
      rw [if_pos h1, if_pos hq]
      simp only [h2, Bool.not_true, Bool.false_eq_true, if_false, decodeOutcome]
      cases decode msg.Data <;> rfl
    · have hq : ¬ Qualifies sender msg := fun hq => h2 (hs.mpr hq.2)
      rw [if_pos h1, if_neg hq]
      simp [h2]
  · have hq : ¬ Qualifies sender msg := fun hq => h1 (hl.mpr hq.1)
    rw [if_neg h1, if_neg hq]

theorem selectLoop_cons_none (fetch : GoString → Option Message)
    (decode : GoString → Option GoString) (sender : GoString) (acc : List GoString)
    (id : GoString) (rest : List GoString) (hf : fetch id = none) :
    selectLoop fetch decode sender acc (id :: rest) =
      ⟨Outcome.fatal Fatal.retrieveMessage, acc ++ [id]⟩ := by
  unfold selectLoop
  rw [hf]

theorem selection_eq_selectLoop (fetch : GoString → Option Message)
    (decode : GoString → Option GoString) (sender : GoString) (ids : List GoString) :
    selection fetch decode sender ids = selectLoop fetch decode sender [] ids := by
  cases ids with
  | nil => simp [selection, selectLoop]
  | cons a l => simp [selection]

theorem selectLoop_skip (fetch : GoString → Option Message)
    (decode : GoString → Option GoString) (sender : GoString) (acc pre rest : List GoString)
    (hfetch : ∀ x ∈ pre, (fetch x).isSome = true)
    (hq : ∀ x ∈ pre, qualifiesId fetch sender x = false) :
    selectLoop fetch decode sender acc (pre ++ rest) =
      selectLoop fetch decode sender (acc ++ pre) rest := by
  induction pre generalizing acc with
  | nil => simp
  | cons x pre ih =>
    obtain ⟨msg, hm⟩ := Option.isSome_iff_exists.mp (hfetch x (List.mem_cons_self _ _))
    have hx : ¬ Qualifies sender msg := by
      have := hq x (List.mem_cons_self _ _)
      simpa [qualifiesId, hm] using this
    rw [List.cons_append, selectLoop_cons_some fetch decode sender acc x _ msg hm, if_neg hx,
      ih (acc ++ [x]) (fun y hy => hfetch y (List.mem_cons_of_mem _ hy))
        (fun y hy => hq y (List.mem_cons_of_mem _ hy))]
    simp

theorem selectLoop_fetch_failure (fetch : GoString → Option Message)
    (decode : GoString → Option GoString) (sender : GoString) (acc pre : List GoString)
    (id : GoString) (post : List GoString) (hfail : fetch id = none)
    (hq : ∀ x ∈ pre, qualifiesId fetch sender x = false) :
    (selectLoop fetch decode sender acc (pre ++ id :: post)).outcome =
        Outcome.fatal Fatal.retrieveMessage ∧
      ∃ t, t <+: pre ++ [id] ∧
        (selectLoop fetch decode sender acc (pre ++ id :: post)).fetched = acc ++ t := by
  induction pre generalizing acc with
  | nil =>
    rw [List.nil_append, selectLoop_cons_none fetch decode sender acc id post hfail]
    exact ⟨rfl, [id], by simp, rfl⟩
  | cons x pre ih =>
    rw [List.cons_append]
    cases hm : fetch x with
    | none =>
      rw [selectLoop_cons_none fetch decode sender acc x _ hm]
      exact ⟨rfl, [x], by simp, rfl⟩
    | some msg =>
      have hx : ¬ Qualifies sender msg := by
        have := hq x (List.mem_cons_self _ _)
        simpa [qualifiesId, hm] using this
      rw [selectLoop_cons_some fetch decode sender acc x _ msg hm, if_neg hx]
      obtain ⟨h1, t, ht, h2⟩ := ih (acc ++ [x]) (fun y hy => hq y (List.mem_cons_of_mem _ hy))
      refine ⟨h1, x :: t, ?_, ?_⟩
      · rw [List.cons_append]
        exact (List.prefix_cons_inj x).mpr ht
      · rw [h2]
        simp

theorem selectLoop_outcome (fetch : GoString → Option Message)
    (decode : GoString → Option GoString) (sender : GoString) (acc ids : List GoString)
    (hfetch : ∀ x ∈ ids, (fetch x).isSome = true) :
    (selectLoop fetch decode sender acc ids).outcome = outcomeOfFirst fetch decode sender ids := by
  induction ids generalizing acc with
  | nil => simp [selectLoop, outcomeOfFirst]
  | cons x ids ih =>
    obtain ⟨msg, hm⟩ := Option.isSome_iff_exists.mp (hfetch x (List.mem_cons_self _ _))
    rw [selectLoop_cons_some fetch decode sender acc x _ msg hm]
    by_cases hx : Qualifies sender msg
    · have hqx : qualifiesId fetch sender x = true := by simp [qualifiesId, hm, hx]
      simp [hx, outcomeOfFirst, List.find?_cons, hqx, hm]
    · have hqx : qualifiesId fetch sender x = false := by simp [qualifiesId, hm, hx]
      rw [if_neg hx, ih _ (fun y hy => hfetch y (List.mem_cons_of_mem _ hy))]
      simp [outcomeOfFirst, List.find?_cons, hqx]

theorem find?_eq_of_forall₂ (q : GoString → Bool) (l l2 : List GoString)
    (h : List.Forall₂ (fun a b => (q a = true ∨ q b = true) → a = b) l l2) :
    l.find? q = l2.find? q := by
  induction h with
  | nil => rfl
  | @cons a b l l2 hab _ ih =>
    by_cases ha : q a = true
    · have := hab (Or.inl ha)
      subst this
      simp [List.find?_cons, ha]
    · by_cases hb : q b = true
      · have := hab (Or.inr hb)
        subst this
        exact absurd hb ha
      · simp [List.find?_cons, ha, hb, ih]

theorem exists_first_qualifying (q : GoString → Bool) (ids : List GoString)
    (h : ∃ x ∈ ids, q x = true) :
    ∃ pre id post, ids = pre ++ id :: post ∧ (∀ x ∈ pre, q x = false) ∧ q id = true := by
  induction ids with
  | nil => simp at h
  | cons a l ih =>
    by_cases ha : q a = true
    · exact ⟨[], a, l, rfl, by simp, ha⟩
    · obtain ⟨x, hx, hqx⟩ := h
      rcases List.mem_cons.mp hx with rfl | hx
      · exact absurd hqx ha
      · obtain ⟨pre, id, post, h1, h2, h3⟩ := ih ⟨x, hx, hqx⟩
        refine ⟨a :: pre, id, post, by simp [h1], ?_, h3⟩
        intro y hy
        rcases List.mem_cons.mp hy with rfl | hy
        · simpa using ha
        · exact h2 y hy

/-! ## The extraction claims -/

/-- C1: when every accepted section of a candidate line contains `" ("`,
`extractArtists` returns exactly the list described by the contract (candidate
lines, comma sections, trimmed, ending with `)`, cut before the first `" ("`);
the two-artist body of scenario 1 gives `["Alice Smith", "Bob Jones"]`. -/
theorem extractArtists_refines_spec (body : GoString)
    (h : ∀ line ∈ Split body '\n', startsUpper line = true → ∀ seg ∈ Split line ',',
      HasSuffix (TrimSpace seg) ")".toList = true → " (".toList <:+: TrimSpace seg) :
    extractArtists body = some (specArtists body) ∧
      extractArtists "Alice Smith (US), Bob Jones (UK)\nnotes: ignore this line".toList =
        some ["Alice Smith".toList, "Bob Jones".toList] := by
  refine ⟨?_, by decide⟩
  have := artistsOfLines_spec [] (Split body '\n') h
  simpa [extractArtists, specArtists] using this

theorem extractArtists_refines_spec_witness :
    extractArtists "Zed Band (UK), Yo (FR) ,x\nsee you (soon)".toList =
        some (specArtists "Zed Band (UK), Yo (FR) ,x\nsee you (soon)".toList) ∧
      specArtists "Zed Band (UK), Yo (FR) ,x\nsee you (soon)".toList =
        ["Zed Band".toList, "Yo".toList] :=
  ⟨(extractArtists_refines_spec "Zed Band (UK), Yo (FR) ,x\nsee you (soon)".toList
    (by decide)).1, by decide⟩

/-- C2 (the code faults here): a candidate line with a section that ends with
`)` and has no `" ("` makes `trimCountry` slice with index `-1`, so the run
panics and no later section or line is processed. -/
theorem extractArtists_faults_without_separator :
    trimCountry "(Live)".toList = none ∧
      extractArtists "Foo(Live)".toList = none ∧
      extractArtists "Acts,(Live),Bob Jones (UK)".toList = none ∧
      extractArtists "Bob Jones (UK),)\nAlice Smith (US)".toList = none := by
  decide

/-- C3 (the code faults here): the candidate line `"Foo(Live)"`, with no space
before `(`, passes the `)` suffix check and has no `" ("`; `strings.Index`
gives `-1`, `trimCountry` slices with it, and the run panics instead of
returning the empty sequence. -/
theorem extractArtists_foo_live_faults :
    startsUpper "Foo(Live)".toList = true ∧
      HasSuffix (TrimSpace "Foo(Live)".toList) ")".toList = true ∧
      Index (TrimSpace "Foo(Live)".toList) " (".toList = -1 ∧
      extractArtists "Foo(Live)".toList = none ∧
      extractArtists "Foo(Live)".toList ≠ some [] := by
  decide

/-- Written with a space before `(`, the line `"Foo (Live)"` has its separator
at offset 3 and takes the normal path of the loop. -/
theorem extractArtists_foo_space_live :
    Index "Foo (Live)".toList " (".toList = 3 ∧
      extractArtists "Foo (Live)".toList = some ["Foo".toList] := by
  decide

/-- C7: a line without line break that is empty or does not start with a
letter `A`..`Z` can be inserted at any position of a list of lines (or taken
out) without changing `extractArtists` of the joined lines. -/
theorem extractArtists_ignores_noncandidate (xs ys : List GoString) (l : GoString)
    (hl : '\n' ∉ l) (hc : ∀ c ∈ l.head?, ¬ ('A' ≤ c ∧ c ≤ 'Z')) :
    extractArtists (joinLines (xs ++ l :: ys)) = extractArtists (joinLines (xs ++ ys)) := by
  have hu : startsUpper l = false := by
    cases l with
    | nil => rfl
    | cons c cs =>
      have := hc c (by simp)
      simp only [startsUpper, Bool.and_eq_false_iff, decide_eq_false_iff_not]
      by_cases h1 : 'A' ≤ c
      · exact Or.inr fun h2 => this ⟨h1, h2⟩
      · exact Or.inl h1
  by_cases hx : xs = []
  · subst hx
    simpa using extractArtists_joinLines_cons_skip l ys hl hu
  · rw [joinLines_append_cons xs l ys hx, extractArtists_append_newline,
      extractArtists_joinLines_cons_skip l ys hl hu]
    cases ys with
    | nil =>
      rw [List.append_nil, show joinLines [] = [] from rfl, extractArtists_nil]
      cases extractArtists (joinLines xs) <;> simp
    | cons y ys => rw [joinLines_append_cons xs y ys hx, extractArtists_append_newline]

theorem extractArtists_ignores_noncandidate_witness :
    extractArtists (joinLines (["Alice Smith (US)".toList] ++
        "x (US), 9 lives)".toList :: ["Bob Jones (UK)".toList])) =
      extractArtists (joinLines (["Alice Smith (US)".toList] ++ ["Bob Jones (UK)".toList])) ∧
    extractArtists (joinLines (["Alice Smith (US)".toList] ++ ["Bob Jones (UK)".toList])) =
      some ["Alice Smith".toList, "Bob Jones".toList] :=
  ⟨extractArtists_ignores_noncandidate ["Alice Smith (US)".toList] ["Bob Jones (UK)".toList]
    "x (US), 9 lives)".toList (by decide) (by decide), by decide⟩

/-- C8: on bodies `a` and `b` on which extraction succeeds,
`extractArtists (a ++ "\n" ++ b)` is `extractArtists a` followed by
`extractArtists b`; a body made of `a` repeated `n` times, one per line, gives
the entries of `a` repeated `n` times, duplicates kept. -/
theorem extractArtists_newline_hom (a b : GoString) (xa xb : List GoString)
    (ha : extractArtists a = some xa) (hb : extractArtists b = some xb) :
    extractArtists (a ++ "\n".toList ++ b) = some (xa ++ xb) ∧
      ∀ n : Nat, extractArtists (joinLines (List.replicate n a)) =
        some (List.replicate n xa).flatten := by
  constructor
  · have : a ++ "\n".toList ++ b = a ++ '\n' :: b := by simp
    rw [this, extractArtists_append_newline, ha, hb]
    rfl
  · intro n
    induction n with
    | zero => exact extractArtists_nil
    | succ n ih =>
      cases n with
      | zero => simpa [joinLines] using ha
      | succ n =>
        have : joinLines (List.replicate (n + 1 + 1) a) =
            a ++ '\n' :: joinLines (List.replicate (n + 1) a) := by
          simp [List.replicate_succ, joinLines]
        rw [this, extractArtists_append_newline, ha, ih]
        simp [List.replicate_succ]

theorem extractArtists_newline_hom_witness :
    extractArtists ("Alice Smith (US)".toList ++ "\n".toList ++ "Alice Smith (US), Bob (UK)".toList)
        = some (["Alice Smith".toList] ++ ["Alice Smith".toList, "Bob".toList]) ∧
      extractArtists (joinLines (List.replicate 3 "Alice Smith (US)".toList)) =
        some (List.replicate 3 ["Alice Smith".toList]).flatten :=
  have h := extractArtists_newline_hom "Alice Smith (US)".toList
    "Alice Smith (US), Bob (UK)".toList ["Alice Smith".toList]
    ["Alice Smith".toList, "Bob".toList] (by decide) (by decide)
  ⟨h.1, h.2 3⟩

/-- C9 (the code faults here): the body `"A(x) (US)"` yields the single name
`"A(x)"`, and extraction applied to that output, one name per line, panics
instead of returning the empty sequence. -/
theorem extractArtists_reextraction_faults :
    extractArtists "A(x) (US)".toList = some ["A(x)".toList] ∧
      extractArtists (joinLines ["A(x)".toList]) = none := by
  decide

/-- C10 (as the code behaves): every name returned by `extractArtists` has no
leading white space and does not contain `" ("`. -/
theorem extractArtists_names_normal (body : GoString) (out : List GoString)
    (h : extractArtists body = some out) :
    ∀ n ∈ out, trimLeft n = n ∧ ¬ " (".toList <:+: n :=
  artistsOfLines_forall (fun n => trimLeft n = n ∧ ¬ " (".toList <:+: n)
    [] (Split body '\n') out (fun _ _ seg _ n hn => trimCountry_TrimSpace_normal seg n hn)
    (by simp) h

theorem extractArtists_names_normal_witness :
    extractArtists "Alice Smith (US),  Foo  (Live) ".toList =
        some ["Alice Smith".toList, "Foo ".toList] ∧
      (trimLeft "Foo ".toList = "Foo ".toList ∧ ¬ " (".toList <:+: "Foo ".toList) :=
  ⟨by decide, extractArtists_names_normal "Alice Smith (US),  Foo  (Live) ".toList
    ["Alice Smith".toList, "Foo ".toList] (by decide) "Foo ".toList (by decide)⟩

/-- C10 fails as stated: the body `"Foo  (US)"` yields the name `"Foo "`, which
ends with a space, so trimming it does not give it back. -/
theorem extractArtists_name_trailing_space :
    extractArtists "Foo  (US)".toList = some ["Foo ".toList] ∧
      TrimSpace "Foo ".toList ≠ "Foo ".toList := by
  decide

/-! ## The selection claims -/

theorem selection_outcome_permute (fetch : GoString → Option Message)
    (decode : GoString → Option GoString) (sender : GoString) (ids : List GoString)
    (hfetch : ∀ x ∈ ids, (fetch x).isSome = true)
    (σ : Equiv.Perm (Fin ids.length))
    (hσ : ∀ i, qualifiesId fetch sender (ids.get i) = true → σ i = i) :
    (selection fetch decode sender (List.ofFn fun i => ids.get (σ i))).outcome =
      (selection fetch decode sender ids).outcome := by
  have hfetch2 : ∀ x ∈ List.ofFn (fun i => ids.get (σ i)), (fetch x).isSome = true := by
    intro x hx
    obtain ⟨i, rfl⟩ := (List.mem_ofFn _ _).mp hx
    exact hfetch _ (List.get_mem _ _ _)
  rw [selection_eq_selectLoop, selection_eq_selectLoop,
    selectLoop_outcome fetch decode sender [] _ hfetch2,
    selectLoop_outcome fetch decode sender [] _ hfetch]
  unfold outcomeOfFirst
  have hfind : (List.ofFn fun i => ids.get (σ i)).find? (qualifiesId fetch sender) =
      ids.find? (qualifiesId fetch sender) := by
    apply find?_eq_of_forall₂
    apply List.forall₂_of_length_eq_of_get (by simp)
    intro i h1 h2
    rw [List.get_ofFn]
    simp only [Fin.cast_mk]
    have hfix : (qualifiesId fetch sender (ids.get (σ ⟨i, h2⟩)) = true ∨
        qualifiesId fetch sender (ids.get ⟨i, h2⟩) = true) → σ ⟨i, h2⟩ = ⟨i, h2⟩ := by
      rintro (h | h)
      · have h3 := hσ _ h
        exact σ.injective h3
      · exact hσ _ h
    intro h
    rw [hfix h]
  rw [hfind]

/-- C4 (as the code behaves): over a listing whose fetches all succeed and that
holds a qualifying message, the loop fetches the messages up to the first
qualifying one and no further; it returns that message's decoded body when
`Data` decodes and stops with the decoding error otherwise; permuting only the
messages that do not qualify leaves this outcome unchanged. -/
theorem selection_first_qualifying (fetch : GoString → Option Message)
    (decode : GoString → Option GoString) (sender : GoString) (ids : List GoString)
    (hfetch : ∀ x ∈ ids, (fetch x).isSome = true)
    (hex : ∃ x ∈ ids, qualifiesId fetch sender x = true) :
    ∃ pre id post msg,
      ids = pre ++ id :: post ∧ (∀ x ∈ pre, qualifiesId fetch sender x = false) ∧
      fetch id = some msg ∧ Qualifies sender msg ∧
      (selection fetch decode sender ids).fetched = pre ++ [id] ∧
      (∀ body, decode msg.Data = some body →
        (selection fetch decode sender ids).outcome = Outcome.returned body) ∧
      (decode msg.Data = none →
        (selection fetch decode sender ids).outcome = Outcome.fatal Fatal.decodeBody) ∧
      ∀ σ : Equiv.Perm (Fin ids.length),
        (∀ i, qualifiesId fetch sender (ids.get i) = true → σ i = i) →
        (selection fetch decode sender (List.ofFn fun i => ids.get (σ i))).outcome =
          (selection fetch decode sender ids).outcome := by
  obtain ⟨pre, id, post, hids, hpre, hid⟩ :=
    exists_first_qualifying (qualifiesId fetch sender) ids hex
  have hidm : id ∈ ids := by simp [hids]
  obtain ⟨msg, hm⟩ := Option.isSome_iff_exists.mp (hfetch id hidm)
  have hq : Qualifies sender msg := by simpa [qualifiesId, hm] using hid
  have hrun : selection fetch decode sender ids = ⟨decodeOutcome decode msg, pre ++ [id]⟩ := by
    rw [selection_eq_selectLoop, hids,
      selectLoop_skip fetch decode sender [] pre (id :: post)
        (fun x hx => hfetch x (by simp [hids, hx])) hpre,
      selectLoop_cons_some fetch decode sender _ id post msg hm, if_pos hq]
    simp
  refine ⟨pre, id, post, msg, hids, hpre, hm, hq, ?_, ?_, ?_, ?_⟩
  · rw [hrun]
  · intro body hb
    rw [hrun]
    simp [decodeOutcome, hb]
  · intro hb
    rw [hrun]
    simp [decodeOutcome, hb]
  · exact fun σ hσ => selection_outcome_permute fetch decode sender ids hfetch σ hσ

theorem selection_first_qualifying_witness :
    ∃ pre id post msg,
      ["m1".toList, "m2".toList, "m3".toList, "m5".toList] = pre ++ id :: post ∧
      (∀ x ∈ pre, qualifiesId sampleFetch "news@venue.example".toList x = false) ∧
      sampleFetch id = some msg ∧ Qualifies "news@venue.example".toList msg ∧
      (selection sampleFetch DecodeString "news@venue.example".toList
        ["m1".toList, "m2".toList, "m3".toList, "m5".toList]).fetched = pre ++ [id] ∧
      (∀ body, DecodeString msg.Data = some body →
        (selection sampleFetch DecodeString "news@venue.example".toList
          ["m1".toList, "m2".toList, "m3".toList, "m5".toList]).outcome =
            Outcome.returned body) ∧
      (DecodeString msg.Data = none →
        (selection sampleFetch DecodeString "news@venue.example".toList
          ["m1".toList, "m2".toList, "m3".toList, "m5".toList]).outcome =
            Outcome.fatal Fatal.decodeBody) ∧
      ∀ σ : Equiv.Perm (Fin ["m1".toList, "m2".toList, "m3".toList, "m5".toList].length),
        (∀ i, qualifiesId sampleFetch "news@venue.example".toList
          (["m1".toList, "m2".toList, "m3".toList, "m5".toList].get i) = true → σ i = i) →
        (selection sampleFetch DecodeString "news@venue.example".toList
          (List.ofFn fun i =>
            ["m1".toList, "m2".toList, "m3".toList, "m5".toList].get (σ i))).outcome =
          (selection sampleFetch DecodeString "news@venue.example".toList
            ["m1".toList, "m2".toList, "m3".toList, "m5".toList]).outcome :=
  selection_first_qualifying sampleFetch DecodeString "news@venue.example".toList
    ["m1".toList, "m2".toList, "m3".toList, "m5".toList] (by decide) (by decide)

/-- C4 fails as stated: the only message of the listing is fetched and
qualifies, its `Data` is not base64, and the run ends in `log.Fatalf` without
returning a body. -/
theorem selection_decode_failure :
    (∀ x ∈ ["m4".toList], (sampleFetch x).isSome = true) ∧
      qualifiesId sampleFetch "news@venue.example".toList "m4".toList = true ∧
      selection sampleFetch DecodeString "news@venue.example".toList ["m4".toList] =
        ⟨Outcome.fatal Fatal.decodeBody, ["m4".toList]⟩ := by
  decide

/-- C5 (as the code behaves): over a listing whose fetches all succeed and in
which no message satisfies the sender and label predicate, the loop fetches
every message and returns the empty result, not an error. -/
theorem selection_no_match (fetch : GoString → Option Message)
    (decode : GoString → Option GoString) (sender : GoString) (ids : List GoString)
    (hfetch : ∀ x ∈ ids, (fetch x).isSome = true)
    (hnone : ∀ x ∈ ids, qualifiesId fetch sender x = false) :
    selection fetch decode sender ids = ⟨Outcome.returned [], ids⟩ := by
  have := selectLoop_skip fetch decode sender [] ids [] hfetch hnone
  rw [List.append_nil] at this
  rw [selection_eq_selectLoop, this]
  simp [selectLoop]

theorem selection_no_match_witness :
    selection sampleFetch DecodeString "nobody@venue.example".toList
        ["m1".toList, "m2".toList, "m3".toList] =
      ⟨Outcome.returned [], ["m1".toList, "m2".toList, "m3".toList]⟩ :=
  selection_no_match sampleFetch DecodeString "nobody@venue.example".toList
    ["m1".toList, "m2".toList, "m3".toList] (by decide) (by decide)

/-- C5 fails as stated: no message of the listing satisfies the predicate, yet
the fetch of its only message fails and the run ends in the retrieval error. -/
theorem selection_no_match_fetch_failure :
    (∀ x ∈ ["m9".toList], qualifiesId sampleFetch "news@venue.example".toList x = false) ∧
      (selection sampleFetch DecodeString "news@venue.example".toList ["m9".toList]).outcome =
        Outcome.fatal Fatal.retrieveMessage ∧
      (selection sampleFetch DecodeString "news@venue.example".toList ["m9".toList]).outcome ≠
        Outcome.returned [] := by
  decide

/-- C6: when the fetch of the message at some position fails and no earlier
message qualifies, the run ends in the retrieval error, the fetches made are an
initial part of the listing that stops at that position at the latest, and no
body is returned, whatever follows in the listing. -/
theorem selection_fetch_failure_fatal (fetch : GoString → Option Message)
    (decode : GoString → Option GoString) (sender : GoString) (pre : List GoString)
    (id : GoString) (post : List GoString) (hfail : fetch id = none)
    (hq : ∀ x ∈ pre, qualifiesId fetch sender x = false) :
    (selection fetch decode sender (pre ++ id :: post)).outcome =
        Outcome.fatal Fatal.retrieveMessage ∧
      (selection fetch decode sender (pre ++ id :: post)).fetched <+: pre ++ [id] ∧
      ∀ body, (selection fetch decode sender (pre ++ id :: post)).outcome ≠
        Outcome.returned body := by
  obtain ⟨h1, t, ht, h2⟩ := selectLoop_fetch_failure fetch decode sender [] pre id post hfail hq
  rw [selection_eq_selectLoop]
  refine ⟨h1, ?_, ?_⟩
  · rw [h2]
    simpa using ht
  · intro body
    rw [h1]
    simp

theorem selection_fetch_failure_fatal_witness :
    selection sampleFetch DecodeString "news@venue.example".toList
        (["m1".toList, "m2".toList] ++ "m9".toList :: ["m3".toList]) =
      ⟨Outcome.fatal Fatal.retrieveMessage, ["m1".toList, "m2".toList, "m9".toList]⟩ ∧
    qualifiesId sampleFetch "news@venue.example".toList "m3".toList = true ∧
    ((selection sampleFetch DecodeString "news@venue.example".toList
        (["m1".toList, "m2".toList] ++ "m9".toList :: ["m3".toList])).outcome =
        Outcome.fatal Fatal.retrieveMessage ∧
      (selection sampleFetch DecodeString "news@venue.example".toList
        (["m1".toList, "m2".toList] ++ "m9".toList :: ["m3".toList])).fetched <+:
          ["m1".toList, "m2".toList] ++ ["m9".toList] ∧
      ∀ body, (selection sampleFetch DecodeString "news@venue.example".toList
        (["m1".toList, "m2".toList] ++ "m9".toList :: ["m3".toList])).outcome ≠
          Outcome.returned body) :=
  ⟨by decide, by decide,
    selection_fetch_failure_fatal sampleFetch DecodeString "news@venue.example".toList
      ["m1".toList, "m2".toList] "m9".toList ["m3".toList] (by decide) (by decide)⟩

end GmailRetrieve
